import Mathlib

/-!
Verification of the `alg-quickselect` crate: a Lomuto partition step
(`partition_unchecked`) and an iterative Quickselect driver in a checked
(`quickselect`) and an unchecked (`quickselect_unchecked`) variant, plus the
three trivial pivot strategies (`first_index`, `middle_index`, `last_index`).

Slices are modelled as `List α` with a `LinearOrder` (Rust's `Ord`).
The non-empty slice window narrowing is modelled by recursing on
`take`/`drop` sub-lists and recomposing, so that the result always describes
the whole original sequence.  A pivot-selection strategy (an `FnMut` closure
in Rust) is modelled as a state-threading function `σ → List α → σ × Nat`
that reads the current window and yields an index (per the strategy contract
it must not resize or rewrite the window).  Rust panics are modelled by an
`Except` error that also carries the state of the sequence at the moment of
failure.
-/

namespace AlgQuickselect

open scoped List

/-- Model of `slice::swap_unchecked i j`: exchange positions `i` and `j`.
Out-of-bounds indices (impossible in the verified call sites) leave the list
unchanged. -/
def listSwap {α : Type*} (l : List α) (i j : Nat) : List α :=
  match l[i]?, l[j]? with
  | some a, some b => (l.set i b).set j a
  | _, _ => l

/-- One step of the Lomuto scan: the body of the `for j in 0..last_index`
loop of `partition_unchecked` (`if s[j] <= s[last_index] { swap(i, j); i += 1 }`),
acting on the accumulator `(s, i)`. -/
def lomutoStep {α : Type*} [LinearOrder α] (last : Nat) (acc : List α × Nat) (j : Nat) :
    List α × Nat :=
  match acc.1[j]?, acc.1[last]? with
  | some a, some b => if a ≤ b then (listSwap acc.1 acc.2 j, acc.2 + 1) else acc
  | _, _ => acc

/-- Model of the private Rust function `partition_unchecked`: Lomuto partition
of the window `s` around the element at `pivot_index`.  Returns the rearranged
window together with the pivot's settled index. -/
def partition_unchecked {α : Type*} [LinearOrder α] (s : List α) (pivot_index : Nat) :
    List α × Nat :=
  let last := s.length - 1
  let s1 := listSwap s pivot_index last
  let r := (List.range last).foldl (lomutoStep last) (s1, 0)
  (listSwap r.1 r.2 last, r.2)

theorem listSwap_length {α : Type*} (l : List α) (i j : Nat) :
    (listSwap l i j).length = l.length := by
  unfold listSwap
  cases h1 : l[i]? <;> cases h2 : l[j]? <;> simp

theorem listSwap_perm {α : Type*} [DecidableEq α] (l : List α) (i j : Nat) :
    listSwap l i j ~ l := by
  unfold listSwap
  cases h1 : l[i]? with
  | none => exact List.Perm.refl l
  | some a =>
    cases h2 : l[j]? with
    | none => exact List.Perm.refl l
    | some b =>
      obtain ⟨hi, ha⟩ := List.getElem?_eq_some_iff.mp h1
      obtain ⟨hj, hb⟩ := List.getElem?_eq_some_iff.mp h2
      show (l.set i b).set j a ~ l
      by_cases hij : i = j
      · subst hij
        rw [List.set_set]
        have heq : l.set i a = l := by
          apply List.ext_getElem?
          intro m
          by_cases hm : i = m
          · subst hm
            rw [List.getElem?_set_self hi, ← ha, List.getElem?_eq_getElem hi]
          · rw [List.getElem?_set_ne hm]
        rw [heq]
      · rw [List.perm_iff_count]
        intro c
        have hj2 : j < (l.set i b).length := by simpa using hj
        rw [List.count_set a c (l.set i b) j hj2, List.count_set b c l i hi]
        have hgj : (l.set i b)[j] = l[j] := by
          rw [List.getElem_set]
          simp [hij]
        rw [hgj, ha, hb]
        by_cases hac : a = c
        · have hcm : c ∈ l := by rw [← hac, ← ha]; exact List.getElem_mem hi
          have hc : 0 < l.count c := List.count_pos_iff.mpr hcm
          by_cases hbc : b = c
          · simp only [hac, hbc, beq_self_eq_true, if_true]
            omega
          · simp only [hac, beq_self_eq_true, if_true, beq_iff_eq, if_neg hbc]
            omega
        · by_cases hbc : b = c
          · simp only [hbc, beq_self_eq_true, if_true, beq_iff_eq, if_neg hac]
            omega
          · simp only [beq_iff_eq, if_neg hac, if_neg hbc]
            omega

theorem foldl_lomutoStep_length {α : Type*} [LinearOrder α] (last : Nat) (js : List Nat)
    (acc : List α × Nat) :
    ((js.foldl (lomutoStep last) acc).1).length = acc.1.length := by
  induction js generalizing acc with
  | nil => rfl
  | cons j js ih =>
    rw [List.foldl_cons, ih]
    unfold lomutoStep
    cases h1 : acc.1[j]? with
    | none => rfl
    | some a =>
      cases h2 : acc.1[last]? with
      | none => rfl
      | some b =>
        by_cases hab : a ≤ b <;> simp [hab, listSwap_length]

theorem foldl_lomutoStep_snd_le {α : Type*} [LinearOrder α] (last : Nat) (js : List Nat)
    (acc : List α × Nat) :
    (js.foldl (lomutoStep last) acc).2 ≤ acc.2 + js.length := by
  induction js generalizing acc with
  | nil => simp
  | cons j js ih =>
    rw [List.foldl_cons]
    have hstep : (lomutoStep last acc j).2 ≤ acc.2 + 1 := by
      unfold lomutoStep
      cases h1 : acc.1[j]? with
      | none =>
        cases h2 : acc.1[last]? with
        | none => show acc.2 ≤ acc.2 + 1; omega
        | some b => show acc.2 ≤ acc.2 + 1; omega
      | some a =>
        cases h2 : acc.1[last]? with
        | none => show acc.2 ≤ acc.2 + 1; omega
        | some b =>
          by_cases hab : a ≤ b <;> simp [hab]
    have := ih (lomutoStep last acc j)
    simp only [List.length_cons]
    omega

theorem partition_length {α : Type*} [LinearOrder α] (s : List α) (p : Nat) :
    (partition_unchecked s p).1.length = s.length := by
  unfold partition_unchecked
  simp only [listSwap_length, foldl_lomutoStep_length]

theorem partition_snd_le {α : Type*} [LinearOrder α] (s : List α) (p : Nat) :
    (partition_unchecked s p).2 ≤ s.length - 1 := by
  unfold partition_unchecked
  have h := foldl_lomutoStep_snd_le (s.length - 1) (List.range (s.length - 1))
    (listSwap s p (s.length - 1), 0)
  simpa using h

theorem partition_snd_lt {α : Type*} [LinearOrder α] (s : List α) (p : Nat)
    (h : 0 < s.length) : (partition_unchecked s p).2 < s.length := by
  have := partition_snd_le s p
  omega

/-- The two ways the checked `quickselect` can panic, with the values it
reports in the panic message. -/
inductive QsError where
  | indexOutOfBounds (len idx : Nat)
  | invalidPivot (len idx : Nat)
deriving DecidableEq, Repr

/-- Re-embed the result of a recursive call on a narrowed window into the
enclosing window: `pre`/`suf` are the discarded parts, `shift` the offset of
the narrowed window inside the enclosing one.  The iteration count of a
success is bumped by one for the enclosing iteration. -/
def recompose {α : Type*} (pre suf : List α) (shift : Nat) :
    Except (QsError × List α) (List α × Nat × Nat) →
      Except (QsError × List α) (List α × Nat × Nat)
  | .error (e, t) => .error (e, pre ++ t ++ suf)
  | .ok (t, j, n) => .ok (pre ++ t ++ suf, shift + j, n + 1)

/-- The `loop` of the Rust `quickselect` (the code after the initial bounds
check on `k`).  The success value is the final arrangement of the whole
window, the absolute index of the slot whose reference is returned, and the
number of loop iterations executed.  The error value is the panic report
together with the arrangement of the window at the moment of the panic. -/
def qsLoop {α : Type*} [LinearOrder α] {σ : Type*} (gp : σ → List α → σ × Nat)
    (st : σ) (s : List α) (k : Nat) :
    Except (QsError × List α) (List α × Nat × Nat) :=
  if hp : s.length ≤ (gp st s).2 then
    .error (.invalidPivot s.length (gp st s).2, s)
  else
    let pr := partition_unchecked s (gp st s).2
    if pr.2 = k then .ok (pr.1, k, 1)
    else if pr.2 < k then
      recompose (pr.1.take (pr.2 + 1)) [] (pr.2 + 1)
        (qsLoop gp (gp st s).1 (pr.1.drop (pr.2 + 1)) (k - (pr.2 + 1)))
    else
      recompose [] (pr.1.drop pr.2) 0
        (qsLoop gp (gp st s).1 (pr.1.take pr.2) k)
termination_by s.length
decreasing_by
  · have h1 := partition_length s (gp st s).2
    have h2 := partition_snd_lt s (gp st s).2 (by omega)
    simp only [List.length_drop, h1]
    omega
  · have h1 := partition_length s (gp st s).2
    have h2 := partition_snd_lt s (gp st s).2 (by omega)
    simp only [List.length_take, h1]
    omega

/-- Model of the public Rust function `quickselect`: bounds-check `k`, then
run the selection loop. -/
def quickselect {α : Type*} [LinearOrder α] {σ : Type*} (gp : σ → List α → σ × Nat)
    (st : σ) (s : List α) (k : Nat) :
    Except (QsError × List α) (List α × Nat × Nat) :=
  if s.length ≤ k then .error (.indexOutOfBounds s.length k, s)
  else qsLoop gp st s k

/-- Model of `get_pivot::middle_index`: `s.len().get() / 2`. -/
def middle_index {α : Type*} (s : List α) : Nat := s.length / 2

/-- Model of `get_pivot::first_index`: always `0`. -/
def first_index {α : Type*} (_ : List α) : Nat := 0

/-- Model of `get_pivot::last_index`: `s.len().get() - 1`. -/
def last_index {α : Type*} (s : List α) : Nat := s.length - 1

/-- Lift a stateless pivot strategy to the state-threading interface used by
the driver (the state models the captured environment of the `FnMut`). -/
def liftStrategy {α : Type*} (f : List α → Nat) : Unit → List α → Unit × Nat :=
  fun st s => (st, f s)

/-- The contract a pivot-selection strategy must uphold: on every non-empty
window, in any state, it returns an in-window index. -/
def GoodStrategy {α : Type*} {σ : Type*} (gp : σ → List α → σ × Nat) : Prop :=
  ∀ st (s : List α), 0 < s.length → (gp st s).2 < s.length

/-- The `loop` of the Rust `quickselect_unchecked`: identical to `qsLoop`
except that a bound violation is undefined behavior, modelled as `none`,
instead of a reported panic. -/
def qsLoopU {α : Type*} [LinearOrder α] {σ : Type*} (gp : σ → List α → σ × Nat)
    (st : σ) (s : List α) (k : Nat) : Option (List α × Nat × Nat) :=
  if _hp : s.length ≤ (gp st s).2 then
    none
  else
    let pr := partition_unchecked s (gp st s).2
    if pr.2 = k then some (pr.1, k, 1)
    else if pr.2 < k then
      match qsLoopU gp (gp st s).1 (pr.1.drop (pr.2 + 1)) (k - (pr.2 + 1)) with
      | none => none
      | some (t, j, n) => some (pr.1.take (pr.2 + 1) ++ t ++ [], pr.2 + 1 + j, n + 1)
    else
      match qsLoopU gp (gp st s).1 (pr.1.take pr.2) k with
      | none => none
      | some (t, j, n) => some ([] ++ t ++ pr.1.drop pr.2, 0 + j, n + 1)
termination_by s.length
decreasing_by
  · have h1 := partition_length s (gp st s).2
    have h2 := partition_snd_lt s (gp st s).2 (by omega)
    simp only [List.length_drop, h1]
    omega
  · have h1 := partition_length s (gp st s).2
    have h2 := partition_snd_lt s (gp st s).2 (by omega)
    simp only [List.length_take, h1]
    omega

/-- Model of the public Rust function `quickselect_unchecked`: no bounds
check on `k` (that precondition is the caller's obligation), just the loop. -/
def quickselect_unchecked {α : Type*} [LinearOrder α] {σ : Type*}
    (gp : σ → List α → σ × Nat) (st : σ) (s : List α) (k : Nat) :
    Option (List α × Nat × Nat) :=
  qsLoopU gp st s k

/-- The ascending sorting of a list; `(sortList s)[k]` is the specification's
"k-th smallest element of `s`". -/
def sortList {α : Type*} [LinearOrder α] (l : List α) : List α :=
  l.insertionSort (· ≤ ·)

theorem listSwap_getElem? {α : Type*} (l : List α) (i j x : Nat)
    (hi : i < l.length) (hj : j < l.length) :
    (listSwap l i j)[x]? = if x = j then l[i]? else if x = i then l[j]? else l[x]? := by
  unfold listSwap
  rw [List.getElem?_eq_getElem hi, List.getElem?_eq_getElem hj]
  show ((l.set i l[j]).set j l[i])[x]? = _
  by_cases hxj : x = j
  · subst hxj
    rw [List.getElem?_set_self (by simpa using hj), if_pos rfl]
  · rw [List.getElem?_set_ne (fun h => hxj h.symm), if_neg hxj]
    by_cases hxi : x = i
    · subst hxi
      rw [List.getElem?_set_self hi, if_pos rfl]
    · rw [List.getElem?_set_ne (fun h => hxi h.symm), if_neg hxi]

/-- Invariant of the Lomuto scan after the first `n` loop iterations of
`partition_unchecked`, relative to the window `s1` (the window after the
initial pivot-to-last swap) and the pivot value `pv` sitting at `last`. -/
def LomutoInv {α : Type*} [LinearOrder α] (pv : α) (last n : Nat) (s1 : List α)
    (acc : List α × Nat) : Prop :=
  acc.1.length = s1.length ∧ acc.2 ≤ n ∧
  (∀ x a, x < acc.2 → acc.1[x]? = some a → a ≤ pv) ∧
  (∀ x a, acc.2 ≤ x → x < n → acc.1[x]? = some a → pv < a) ∧
  acc.1[last]? = some pv ∧ List.Perm acc.1 s1

theorem lomutoInv_step {α : Type*} [LinearOrder α] {pv : α} {last n : Nat}
    {s1 : List α} {acc : List α × Nat} (hlast : last < s1.length) (hn : n < last)
    (h : LomutoInv pv last n s1 acc) :
    LomutoInv pv last (n + 1) s1 (lomutoStep last acc n) := by
  obtain ⟨hlen, hile, hsmall, hbig, hpiv, hperm⟩ := h
  have hnlt : n < acc.1.length := by omega
  have hilt : acc.2 < acc.1.length := by omega
  have hlastlt : last < acc.1.length := by omega
  have hgn : acc.1[n]? = some acc.1[n] := List.getElem?_eq_getElem hnlt
  unfold lomutoStep
  rw [hgn, hpiv]
  show LomutoInv pv last (n + 1) s1
    (if acc.1[n] ≤ pv then (listSwap acc.1 acc.2 n, acc.2 + 1) else acc)
  by_cases hab : acc.1[n] ≤ pv
  · rw [if_pos hab]
    have hget := listSwap_getElem? acc.1 acc.2 n
    refine ⟨by rw [listSwap_length]; exact hlen, by omega, ?_, ?_, ?_, ?_⟩
    · intro x a hx hxa
      rw [hget x hilt hnlt] at hxa
      by_cases hxn : x = n
      · rw [if_pos hxn] at hxa
        have hxi : x = acc.2 := by omega
        have : acc.2 = n := by omega
        rw [this, hgn] at hxa
        exact (Option.some.injEq _ _).mp hxa ▸ hab
      · rw [if_neg hxn] at hxa
        by_cases hxi : x = acc.2
        · rw [if_pos hxi, hgn] at hxa
          exact (Option.some.injEq _ _).mp hxa ▸ hab
        · rw [if_neg hxi] at hxa
          exact hsmall x a (by omega) hxa
    · intro x a hx1 hx2 hxa
      rw [hget x hilt hnlt] at hxa
      by_cases hxn : x = n
      · rw [if_pos hxn] at hxa
        have hi2 : acc.2 < n := by omega
        exact hbig acc.2 a le_rfl hi2 hxa
      · rw [if_neg hxn, if_neg (by omega : ¬ x = acc.2)] at hxa
        exact hbig x a (by omega) (by omega) hxa
    · rw [hget last hilt hnlt, if_neg (by omega : ¬ last = n),
        if_neg (by omega : ¬ last = acc.2)]
      exact hpiv
    · exact (listSwap_perm acc.1 acc.2 n).trans hperm
  · rw [if_neg hab]
    refine ⟨hlen, by omega, hsmall, ?_, hpiv, hperm⟩
    intro x a hx1 hx2 hxa
    by_cases hxn : x = n
    · subst hxn
      rw [hgn] at hxa
      exact (Option.some.injEq _ _).mp hxa ▸ lt_of_not_le hab
    · exact hbig x a hx1 (by omega) hxa

theorem lomutoInv_fold {α : Type*} [LinearOrder α] {pv : α} {last : Nat}
    {s1 : List α} (hlast : last < s1.length) (hpv : s1[last]? = some pv) :
    ∀ n, n ≤ last →
      LomutoInv pv last n s1 ((List.range n).foldl (lomutoStep last) (s1, 0)) := by
  intro n
  induction n with
  | zero =>
    intro _
    exact ⟨rfl, le_rfl, fun x a hx _ => absurd hx (Nat.not_lt_zero x),
      fun x a hx1 hx2 _ => absurd hx2 (Nat.not_lt_zero x), hpv, List.Perm.refl s1⟩
  | succ n ih =>
    intro hn
    rw [List.range_succ, List.foldl_append, List.foldl_cons, List.foldl_nil]
    exact lomutoInv_step hlast (by omega) (ih (by omega))

/-- Full functional specification of one Lomuto partition step: length and
multiset are preserved, the settled index is in range, the element there is
the original pivot value, everything before it is `≤` it and everything
after it is strictly greater. -/
theorem partition_spec {α : Type*} [LinearOrder α] (s : List α) (pidx : Nat)
    (hp : pidx < s.length) {t : List α} {i : Nat}
    (heq : partition_unchecked s pidx = (t, i)) :
    t.length = s.length ∧ i < s.length ∧ List.Perm t s ∧
      ∃ pv, s[pidx]? = some pv ∧ t[i]? = some pv ∧
        (∀ x a, x < i → t[x]? = some a → a ≤ pv) ∧
        (∀ x a, i < x → t[x]? = some a → pv < a) := by
  have hpos : 0 < s.length := by omega
  set last := s.length - 1 with hlastdef
  have hlast : last < s.length := by omega
  set s1 := listSwap s pidx last with hs1def
  have hs1len : s1.length = s.length := listSwap_length s pidx last
  have hpv0 : s1[last]? = s[pidx]? := by
    rw [hs1def, listSwap_getElem? s pidx last last hp hlast, if_pos rfl]
  obtain ⟨pv, hpv1⟩ : ∃ pv, s[pidx]? = some pv :=
    ⟨s[pidx], List.getElem?_eq_getElem hp⟩
  have hpv : s1[last]? = some pv := by rw [hpv0, hpv1]
  have hinv := lomutoInv_fold (by omega) hpv last le_rfl
  set acc := (List.range last).foldl (lomutoStep last) (s1, 0) with haccdef
  obtain ⟨hlen, hile, hsmall, hbig, hpiv, hperm⟩ := hinv
  have hti : partition_unchecked s pidx = (listSwap acc.1 acc.2 last, acc.2) := by
    rw [partition_unchecked]
  rw [heq] at hti
  have ht : t = listSwap acc.1 acc.2 last := ((Prod.mk.injEq _ _ _ _).mp hti.symm).1.symm
  have hi : i = acc.2 := ((Prod.mk.injEq _ _ _ _).mp hti.symm).2.symm
  have hi2lt : acc.2 < acc.1.length := by omega
  have hlastlt : last < acc.1.length := by omega
  have hget := listSwap_getElem? acc.1 acc.2 last
  have htlen : t.length = s.length := by
    rw [ht, listSwap_length]; omega
  refine ⟨htlen, by omega, ?_, pv, hpv1, ?_, ?_, ?_⟩
  · rw [ht]
    exact ((listSwap_perm acc.1 acc.2 last).trans hperm).trans (listSwap_perm s pidx last)
  · rw [ht, hi, hget acc.2 hi2lt hlastlt]
    by_cases hil : acc.2 = last
    · rw [if_pos hil, hil]
      exact hpiv
    · rw [if_neg hil, if_pos rfl]
      exact hpiv
  · intro x a hx hxa
    rw [ht, hget x hi2lt hlastlt] at hxa
    rw [hi] at hx
    rw [if_neg (by omega : ¬ x = last), if_neg (by omega : ¬ x = acc.2)] at hxa
    exact hsmall x a hx hxa
  · intro x a hx hxa
    rw [hi] at hx
    have hxlen : x < acc.1.length := by
      by_contra hcon
      rw [ht] at hxa
      rw [List.getElem?_eq_none (by rw [listSwap_length]; omega)] at hxa
      exact Option.noConfusion hxa
    rw [ht, hget x hi2lt hlastlt] at hxa
    by_cases hxl : x = last
    · rw [if_pos hxl] at hxa
      have hilast : acc.2 < last := by omega
      exact hbig acc.2 a le_rfl hilast hxa
    · rw [if_neg hxl, if_neg (by omega : ¬ x = acc.2)] at hxa
      exact hbig x a (by omega) (by omega) hxa

theorem sortList_sorted {α : Type*} [LinearOrder α] (l : List α) :
    List.Sorted (· ≤ ·) (sortList l) :=
  List.sorted_insertionSort _ l

theorem sortList_perm {α : Type*} [LinearOrder α] (l : List α) :
    List.Perm (sortList l) l :=
  List.perm_insertionSort _ l

theorem sortList_length {α : Type*} [LinearOrder α] (l : List α) :
    (sortList l).length = l.length :=
  (sortList_perm l).length_eq

theorem sortList_congr {α : Type*} [LinearOrder α] {l l' : List α}
    (h : List.Perm l l') : sortList l = sortList l' :=
  List.eq_of_perm_of_sorted (((sortList_perm l).trans h).trans (sortList_perm l').symm)
    (sortList_sorted l) (sortList_sorted l')

/-- If position `p` of `l` is a two-sided split point (everything before is
`≤ l[p]`, everything after is `≥ l[p]`), then sorting `l` amounts to sorting
the two sides in place around it. -/
theorem sortList_split {α : Type*} [LinearOrder α] (l : List α) (p : Nat) (v : α)
    (hv : l[p]? = some v)
    (hsmall : ∀ x a, x < p → l[x]? = some a → a ≤ v)
    (hbig : ∀ x a, p < x → l[x]? = some a → v ≤ a) :
    sortList l = sortList (l.take p) ++ v :: sortList (l.drop (p + 1)) := by
  obtain ⟨hp, hlv⟩ := List.getElem?_eq_some_iff.mp hv
  have hAle : ∀ a ∈ sortList (l.take p), a ≤ v := by
    intro a ha
    obtain ⟨x, hx⟩ := List.mem_iff_getElem?.mp ((sortList_perm _).subset ha)
    have hxp : x < p := by
      by_contra hcon
      rw [List.getElem?_eq_none (by simp; omega)] at hx
      exact Option.noConfusion hx
    rw [List.getElem?_take_of_lt hxp] at hx
    exact hsmall x a hxp hx
  have hBge : ∀ b ∈ sortList (l.drop (p + 1)), v ≤ b := by
    intro b hb
    obtain ⟨x, hx⟩ := List.mem_iff_getElem?.mp ((sortList_perm _).subset hb)
    rw [List.getElem?_drop] at hx
    exact hbig (p + 1 + x) b (by omega) hx
  have hdecomp : l = l.take p ++ v :: l.drop (p + 1) := by
    conv_lhs => rw [← List.take_append_drop p l]
    congr 1
    rw [← List.getElem_cons_drop l p hp, hlv]
  have hsortedR : List.Sorted (· ≤ ·)
      (sortList (l.take p) ++ v :: sortList (l.drop (p + 1))) := by
    apply List.pairwise_append.mpr
    refine ⟨sortList_sorted _, ?_, ?_⟩
    · exact List.sorted_cons.mpr ⟨hBge, sortList_sorted _⟩
    · intro a ha b hb
      rcases List.mem_cons.mp hb with hb | hb
      · exact hb ▸ hAle a ha
      · exact le_trans (hAle a ha) (hBge b hb)
  have hpermR : List.Perm (sortList (l.take p) ++ v :: sortList (l.drop (p + 1))) l := by
    conv_rhs => rw [hdecomp]
    exact List.Perm.append (sortList_perm _) (List.Perm.cons v (sortList_perm _))
  exact List.eq_of_perm_of_sorted ((sortList_perm l).trans hpermR.symm)
    (sortList_sorted l) hsortedR

theorem qsLoop_eq_of_ge {α : Type*} [LinearOrder α] {σ : Type*}
    {gp : σ → List α → σ × Nat} {st : σ} {s : List α} {k : Nat}
    (hge : s.length ≤ (gp st s).2) :
    qsLoop gp st s k = .error (.invalidPivot s.length (gp st s).2, s) := by
  rw [qsLoop, dif_pos hge]

theorem qsLoop_eq_of_lt {α : Type*} [LinearOrder α] {σ : Type*}
    {gp : σ → List α → σ × Nat} {st : σ} {s : List α} {k : Nat}
    (hlt : (gp st s).2 < s.length) {t1 : List α} {p : Nat}
    (hpart : partition_unchecked s (gp st s).2 = (t1, p)) :
    qsLoop gp st s k =
      if p = k then .ok (t1, k, 1)
      else if p < k then
        recompose (t1.take (p + 1)) [] (p + 1)
          (qsLoop gp (gp st s).1 (t1.drop (p + 1)) (k - (p + 1)))
      else recompose [] (t1.drop p) 0 (qsLoop gp (gp st s).1 (t1.take p) k) := by
  rw [qsLoop, dif_neg (by omega), hpart]

theorem qsLoopU_eq_of_ge {α : Type*} [LinearOrder α] {σ : Type*}
    {gp : σ → List α → σ × Nat} {st : σ} {s : List α} {k : Nat}
    (hge : s.length ≤ (gp st s).2) :
    qsLoopU gp st s k = none := by
  rw [qsLoopU, dif_pos hge]

theorem qsLoopU_eq_of_lt {α : Type*} [LinearOrder α] {σ : Type*}
    {gp : σ → List α → σ × Nat} {st : σ} {s : List α} {k : Nat}
    (hlt : (gp st s).2 < s.length) {t1 : List α} {p : Nat}
    (hpart : partition_unchecked s (gp st s).2 = (t1, p)) :
    qsLoopU gp st s k =
      if p = k then some (t1, k, 1)
      else if p < k then
        match qsLoopU gp (gp st s).1 (t1.drop (p + 1)) (k - (p + 1)) with
        | none => none
        | some (t, j, n) => some (t1.take (p + 1) ++ t ++ [], p + 1 + j, n + 1)
      else
        match qsLoopU gp (gp st s).1 (t1.take p) k with
        | none => none
        | some (t, j, n) => some ([] ++ t ++ t1.drop p, 0 + j, n + 1) := by
  rw [qsLoopU, dif_neg (by omega), hpart]

theorem recompose_ok {α : Type*} (pre suf : List α) (shift : Nat) (t : List α)
    (j n : Nat) :
    recompose pre suf shift (.ok (t, j, n)) = .ok (pre ++ t ++ suf, shift + j, n + 1) :=
  rfl

theorem recompose_error {α : Type*} (pre suf : List α) (shift : Nat) (e : QsError)
    (t : List α) :
    recompose pre suf shift (.error (e, t)) = .error (e, pre ++ t ++ suf) :=
  rfl

/-- Main loop invariant theorem: given an in-window pivot strategy and a
valid rank, the loop succeeds, returns the slot at absolute index `k`, the
final arrangement is a permutation of the input holding the `k`-th smallest
element at index `k`, and at most `s.length` iterations run. -/
theorem qsLoop_main {α : Type*} [LinearOrder α] {σ : Type*}
    (gp : σ → List α → σ × Nat) (hgp : GoodStrategy gp) :
    ∀ N (s : List α) (k : Nat) (st : σ), s.length ≤ N → k < s.length →
      ∃ t n, qsLoop gp st s k = .ok (t, k, n) ∧ t.length = s.length ∧
        List.Perm t s ∧ t[k]? = (sortList s)[k]? ∧ 0 < n ∧ n ≤ s.length := by
  intro N
  induction N with
  | zero => intro s k st hN hk; omega
  | succ N ih =>
    intro s k st hN hk
    have hpos : 0 < s.length := by omega
    have hpidx : (gp st s).2 < s.length := hgp st s hpos
    obtain ⟨t1, p, hpart⟩ : ∃ t1 p, partition_unchecked s (gp st s).2 = (t1, p) :=
      ⟨_, _, rfl⟩
    obtain ⟨hlen1, hplt, hperm1, pv, hpv1, hpv2, hsmall, hbig⟩ :=
      partition_spec s (gp st s).2 hpidx hpart
    have hsplit := sortList_split t1 p pv hpv2 hsmall
      (fun x a hx hxa => le_of_lt (hbig x a hx hxa))
    have hsorteq : sortList s = sortList t1 := sortList_congr hperm1.symm
    have hAlen : (sortList (t1.take p)).length = p := by
      rw [sortList_length, List.length_take]
      omega
    rw [qsLoop_eq_of_lt hpidx hpart]
    rcases Nat.lt_trichotomy p k with hpk | hpk | hpk
    · -- p < k : discard the left side including the pivot
      rw [if_neg (by omega), if_pos hpk]
      have hk2 : k - (p + 1) < (t1.drop (p + 1)).length := by
        rw [List.length_drop]
        omega
      have hN2 : (t1.drop (p + 1)).length ≤ N := by
        rw [List.length_drop]
        omega
      obtain ⟨t2, n2, hrec, hlen2, hperm2, hget2, hn2a, hn2b⟩ :=
        ih (t1.drop (p + 1)) (k - (p + 1)) (gp st s).1 hN2 hk2
      rw [hrec, recompose_ok, List.append_nil,
        (by omega : p + 1 + (k - (p + 1)) = k)]
      refine ⟨t1.take (p + 1) ++ t2, n2 + 1, rfl, ?_, ?_, ?_, by omega, ?_⟩
      · rw [List.length_append, List.length_take, hlen2, List.length_drop]
        omega
      · exact ((List.Perm.append_left (t1.take (p + 1)) hperm2).trans
          (List.Perm.of_eq (List.take_append_drop (p + 1) t1))).trans hperm1
      · have htk : (t1.take (p + 1)).length = p + 1 := by
          rw [List.length_take]
          omega
        rw [List.getElem?_append_right (by omega : (t1.take (p + 1)).length ≤ k),
          List.length_take, (by omega : k - min (p + 1) t1.length = k - (p + 1)), hget2]
        rw [hsorteq, hsplit,
          List.getElem?_append_right
            (by rw [hAlen]; omega : (sortList (t1.take p)).length ≤ k),
          hAlen, (by omega : k - p = (k - (p + 1)) + 1), List.getElem?_cons_succ]
      · rw [List.length_drop] at hlen2 hn2b
        omega
    · -- p = k : found
      subst hpk
      rw [if_pos rfl]
      refine ⟨t1, 1, rfl, by omega, hperm1, ?_, by omega, by omega⟩
      rw [hsorteq, hsplit,
        List.getElem?_append_right (by rw [hAlen] : (sortList (t1.take p)).length ≤ p),
        hAlen, Nat.sub_self, List.getElem?_cons_zero, hpv2]
    · -- p > k : discard the right side including the pivot
      rw [if_neg (by omega), if_neg (by omega)]
      have htake : (t1.take p).length = p := by
        rw [List.length_take]
        omega
      have hk2 : k < (t1.take p).length := by omega
      have hN2 : (t1.take p).length ≤ N := by omega
      obtain ⟨t2, n2, hrec, hlen2, hperm2, hget2, hn2a, hn2b⟩ :=
        ih (t1.take p) k (gp st s).1 hN2 hk2
      rw [hrec, recompose_ok, List.nil_append, Nat.zero_add]
      refine ⟨t2 ++ t1.drop p, n2 + 1, rfl, ?_, ?_, ?_, by omega, by omega⟩
      · rw [List.length_append, hlen2, htake, List.length_drop]
        omega
      · exact ((List.Perm.append hperm2 (List.Perm.refl (t1.drop p))).trans
          (List.Perm.of_eq (List.take_append_drop p t1))).trans hperm1
      · rw [List.getElem?_append_left (by omega : k < t2.length), hget2]
        rw [hsorteq, hsplit, List.getElem?_append_left (by rw [hAlen]; omega)]

theorem quickselect_main {α : Type*} [LinearOrder α] {σ : Type*}
    (gp : σ → List α → σ × Nat) (hgp : GoodStrategy gp) (st : σ) (s : List α)
    (k : Nat) (hk : k < s.length) :
    ∃ t n, quickselect gp st s k = .ok (t, k, n) ∧ t.length = s.length ∧
      List.Perm t s ∧ t[k]? = (sortList s)[k]? ∧ 0 < n ∧ n ≤ s.length := by
  rw [quickselect, if_neg (by omega)]
  exact qsLoop_main gp hgp s.length s k st le_rfl hk

/-- Inversion of a loop failure: the only failure the loop itself can raise
is the invalid-pivot panic; the sequence state it reports is a permutation of
the loop's input in which the window of the failing iteration appears
untouched, and the reported length/index are that window's actual length and
the strategy's actual (out-of-window) output on it. -/
theorem qsLoop_error_inv {α : Type*} [LinearOrder α] {σ : Type*}
    (gp : σ → List α → σ × Nat) :
    ∀ N (s : List α) (k : Nat) (st : σ) (e : QsError) (t : List α),
      s.length ≤ N → qsLoop gp st s k = .error (e, t) →
      List.Perm t s ∧ t.length = s.length ∧
        ∃ len idx pre w suf st2, e = .invalidPivot len idx ∧ len ≤ idx ∧
          t = pre ++ w ++ suf ∧ w.length = len ∧ (gp st2 w).2 = idx := by
  intro N
  induction N with
  | zero =>
    intro s k st e t hN heq
    have hge : s.length ≤ (gp st s).2 := by omega
    rw [qsLoop_eq_of_ge hge] at heq
    injection heq with h1
    obtain ⟨he, ht⟩ := Prod.mk.injEq _ _ _ _ ▸ h1
    subst ht
    exact ⟨List.Perm.refl s, rfl, s.length, (gp st s).2, [], s, [], st, he.symm, hge,
      by simp, rfl, rfl⟩
  | succ N ih =>
    intro s k st e t hN heq
    by_cases hge : s.length ≤ (gp st s).2
    · rw [qsLoop_eq_of_ge hge] at heq
      injection heq with h1
      obtain ⟨he, ht⟩ := Prod.mk.injEq _ _ _ _ ▸ h1
      subst ht
      exact ⟨List.Perm.refl s, rfl, s.length, (gp st s).2, [], s, [], st, he.symm, hge,
        by simp, rfl, rfl⟩
    · have hpidx : (gp st s).2 < s.length := by omega
      obtain ⟨t1, p, hpart⟩ : ∃ t1 p, partition_unchecked s (gp st s).2 = (t1, p) :=
        ⟨_, _, rfl⟩
      obtain ⟨hlen1, hplt, hperm1, pv, hpv1, hpv2, hsmall, hbig⟩ :=
        partition_spec s (gp st s).2 hpidx hpart
      rw [qsLoop_eq_of_lt hpidx hpart] at heq
      rcases Nat.lt_trichotomy p k with hpk | hpk | hpk
      · rw [if_neg (by omega), if_pos hpk] at heq
        cases hq : qsLoop gp (gp st s).1 (t1.drop (p + 1)) (k - (p + 1)) with
        | ok r =>
          obtain ⟨t2, j2, n2⟩ := r
          rw [hq, recompose_ok] at heq
          exact Except.noConfusion heq
        | error r =>
          obtain ⟨e2, t2⟩ := r
          rw [hq, recompose_error] at heq
          injection heq with h1
          obtain ⟨he, ht⟩ := Prod.mk.injEq _ _ _ _ ▸ h1
          have hN2 : (t1.drop (p + 1)).length ≤ N := by
            rw [List.length_drop]
            omega
          obtain ⟨hperm2, hlen2, len, idx, pre, w, suf, st2, he2, hle2, ht2, hw2, hgp2⟩ :=
            ih (t1.drop (p + 1)) (k - (p + 1)) (gp st s).1 e2 t2 hN2 hq
          subst he
          refine ⟨?_, ?_, len, idx, t1.take (p + 1) ++ pre, w, suf, st2, he2, hle2,
            ?_, hw2, hgp2⟩
          · rw [← ht, List.append_nil]
            exact ((List.Perm.append_left (t1.take (p + 1)) hperm2).trans
              (List.Perm.of_eq (List.take_append_drop (p + 1) t1))).trans hperm1
          · rw [← ht, List.append_nil, List.length_append, hlen2, List.length_take,
              List.length_drop]
            omega
          · rw [← ht, List.append_nil, ht2]
            simp [List.append_assoc]
      · subst hpk
        rw [if_pos rfl] at heq
        exact Except.noConfusion heq
      · rw [if_neg (by omega), if_neg (by omega)] at heq
        cases hq : qsLoop gp (gp st s).1 (t1.take p) k with
        | ok r =>
          obtain ⟨t2, j2, n2⟩ := r
          rw [hq, recompose_ok] at heq
          exact Except.noConfusion heq
        | error r =>
          obtain ⟨e2, t2⟩ := r
          rw [hq, recompose_error] at heq
          injection heq with h1
          obtain ⟨he, ht⟩ := Prod.mk.injEq _ _ _ _ ▸ h1
          have htake : (t1.take p).length = p := by
            rw [List.length_take]
            omega
          have hN2 : (t1.take p).length ≤ N := by omega
          obtain ⟨hperm2, hlen2, len, idx, pre, w, suf, st2, he2, hle2, ht2, hw2, hgp2⟩ :=
            ih (t1.take p) k (gp st s).1 e2 t2 hN2 hq
          subst he
          refine ⟨?_, ?_, len, idx, pre, w, suf ++ t1.drop p, st2, he2, hle2, ?_,
            hw2, hgp2⟩
          · rw [← ht, List.nil_append]
            exact ((List.Perm.append hperm2 (List.Perm.refl (t1.drop p))).trans
              (List.Perm.of_eq (List.take_append_drop p t1))).trans hperm1
          · rw [← ht, List.nil_append, List.length_append, hlen2, htake,
              List.length_drop]
            omega
          · rw [← ht, List.nil_append, ht2]
            simp [List.append_assoc]

theorem quickselect_eq_of_ge {α : Type*} [LinearOrder α] {σ : Type*}
    (gp : σ → List α → σ × Nat) (st : σ) (s : List α) (k : Nat)
    (hk : s.length ≤ k) :
    quickselect gp st s k = .error (.indexOutOfBounds s.length k, s) := by
  rw [quickselect, if_pos hk]

theorem quickselect_pivot_fail {α : Type*} [LinearOrder α] {σ : Type*}
    (gp : σ → List α → σ × Nat) (st : σ) (s : List α) (k : Nat)
    (hk : k < s.length) (hbad : s.length ≤ (gp st s).2) :
    quickselect gp st s k = .error (.invalidPivot s.length (gp st s).2, s) := by
  rw [quickselect, if_neg (by omega), qsLoop_eq_of_ge hbad]

theorem quickselect_error_inv {α : Type*} [LinearOrder α] {σ : Type*}
    (gp : σ → List α → σ × Nat) (st : σ) (s : List α) (k : Nat) (e : QsError)
    (t : List α) (heq : quickselect gp st s k = .error (e, t)) :
    (s.length ≤ k ∧ e = .indexOutOfBounds s.length k ∧ t = s) ∨
      (k < s.length ∧ List.Perm t s ∧ t.length = s.length ∧
        ∃ len idx pre w suf st2, e = .invalidPivot len idx ∧ len ≤ idx ∧
          t = pre ++ w ++ suf ∧ w.length = len ∧ (gp st2 w).2 = idx) := by
  by_cases hk : s.length ≤ k
  · left
    rw [quickselect, if_pos hk] at heq
    injection heq with h1
    obtain ⟨he, ht⟩ := Prod.mk.injEq _ _ _ _ ▸ h1
    exact ⟨hk, he.symm, ht.symm⟩
  · right
    rw [quickselect, if_neg hk] at heq
    exact ⟨by omega, qsLoop_error_inv gp s.length s k st e t le_rfl heq⟩

/-- On a single-element window with `k = 0` and any strategy answer that is
in-window (necessarily `0`), the checked selection returns in the very first
iteration with the window unchanged. -/
theorem quickselect_singleton {α : Type*} [LinearOrder α] {σ : Type*}
    (gp : σ → List α → σ × Nat) (st : σ) (x : α) (h : (gp st [x]).2 < 1) :
    quickselect gp st [x] 0 = .ok ([x], 0, 1) := by
  rw [quickselect, if_neg (by simp)]
  have h0 : (gp st [x]).2 = 0 := by omega
  have hpart : partition_unchecked [x] (gp st [x]).2 = ([x], 0) := by
    rw [h0]
    rfl
  rw [qsLoop_eq_of_lt (by simp [h0]) hpart, if_pos rfl]

/-- The first element of the sorted list is the minimum. -/
theorem sortList_head_min {α : Type*} [LinearOrder α] (s : List α)
    (h : 0 < s.length) :
    ∃ v, (sortList s)[0]? = some v ∧ v ∈ s ∧ ∀ x ∈ s, v ≤ x := by
  have hlen : 0 < (sortList s).length := by
    rw [sortList_length]
    omega
  refine ⟨(sortList s).get ⟨0, hlen⟩, by simp, ?_, ?_⟩
  · exact (sortList_perm s).subset (List.get_mem _ _ _)
  · intro x hx
    obtain ⟨m, hm, hxm⟩ := List.mem_iff_getElem.mp ((sortList_perm s).mem_iff.mpr hx)
    rcases Nat.eq_zero_or_pos m with hm0 | hm0
    · subst hm0
      rw [← hxm]
      exact le_of_eq (by simp)
    · rw [← hxm]
      exact (sortList_sorted s).rel_get_of_lt (by simpa using hm0)

/-- The last element of the sorted list is the maximum. -/
theorem sortList_last_max {α : Type*} [LinearOrder α] (s : List α)
    (h : 0 < s.length) :
    ∃ v, (sortList s)[s.length - 1]? = some v ∧ v ∈ s ∧ ∀ x ∈ s, x ≤ v := by
  have hlen : s.length - 1 < (sortList s).length := by
    rw [sortList_length]
    omega
  refine ⟨(sortList s).get ⟨s.length - 1, hlen⟩, by simp, ?_, ?_⟩
  · exact (sortList_perm s).subset (List.get_mem _ _ _)
  · intro x hx
    obtain ⟨m, hm, hxm⟩ := List.mem_iff_getElem.mp ((sortList_perm s).mem_iff.mpr hx)
    have hm2 : m ≤ s.length - 1 := by
      rw [sortList_length] at hm
      omega
    rcases Nat.lt_or_ge m (s.length - 1) with hmlt | hmge
    · rw [← hxm]
      exact (sortList_sorted s).rel_get_of_lt (by simpa using hmlt)
    · have hmeq : m = s.length - 1 := by omega
      subst hmeq
      rw [← hxm]
      exact le_of_eq (by simp)

/-- The unchecked loop is the checked loop with the panic collapsed to
(a model of) undefined behavior. -/
theorem qsLoopU_eq_toOption {α : Type*} [LinearOrder α] {σ : Type*}
    (gp : σ → List α → σ × Nat) :
    ∀ N (s : List α) (k : Nat) (st : σ), s.length ≤ N →
      qsLoopU gp st s k = (qsLoop gp st s k).toOption := by
  intro N
  induction N with
  | zero =>
    intro s k st hN
    have hge : s.length ≤ (gp st s).2 := by omega
    rw [qsLoopU_eq_of_ge hge, qsLoop_eq_of_ge hge]
    rfl
  | succ N ih =>
    intro s k st hN
    by_cases hge : s.length ≤ (gp st s).2
    · rw [qsLoopU_eq_of_ge hge, qsLoop_eq_of_ge hge]
      rfl
    · have hpidx : (gp st s).2 < s.length := by omega
      obtain ⟨t1, p, hpart⟩ : ∃ t1 p, partition_unchecked s (gp st s).2 = (t1, p) :=
        ⟨_, _, rfl⟩
      have hlen1 : t1.length = s.length := by
        have hl := partition_length s (gp st s).2
        rw [hpart] at hl
        exact hl
      have hplt : p < s.length := by
        have hl := partition_snd_lt s (gp st s).2 (by omega)
        rw [hpart] at hl
        exact hl
      rw [qsLoopU_eq_of_lt hpidx hpart, qsLoop_eq_of_lt hpidx hpart]
      rcases Nat.lt_trichotomy p k with hpk | hpk | hpk
      · rw [if_neg (by omega), if_pos hpk, if_neg (by omega), if_pos hpk]
        have hN2 : (t1.drop (p + 1)).length ≤ N := by
          rw [List.length_drop]
          omega
        rw [ih (t1.drop (p + 1)) (k - (p + 1)) (gp st s).1 hN2]
        cases hq : qsLoop gp (gp st s).1 (t1.drop (p + 1)) (k - (p + 1)) with
        | ok r =>
          obtain ⟨t2, j2, n2⟩ := r
          rw [recompose_ok]
          rfl
        | error r =>
          obtain ⟨e2, t2⟩ := r
          rw [recompose_error]
          rfl
      · subst hpk
        rw [if_pos rfl, if_pos rfl]
        rfl
      · rw [if_neg (by omega), if_neg (by omega), if_neg (by omega), if_neg (by omega)]
        have hN2 : (t1.take p).length ≤ N := by
          rw [List.length_take]
          omega
        rw [ih (t1.take p) k (gp st s).1 hN2]
        cases hq : qsLoop gp (gp st s).1 (t1.take p) k with
        | ok r =>
          obtain ⟨t2, j2, n2⟩ := r
          rw [recompose_ok]
          rfl
        | error r =>
          obtain ⟨e2, t2⟩ := r
          rw [recompose_error]
          rfl

theorem goodStrategy_first {α : Type*} :
    GoodStrategy (liftStrategy (first_index (α := α))) :=
  fun _ _ h => h

theorem goodStrategy_middle {α : Type*} :
    GoodStrategy (liftStrategy (middle_index (α := α))) :=
  fun _ s h => Nat.div_lt_self h (by omega)

theorem goodStrategy_last {α : Type*} :
    GoodStrategy (liftStrategy (last_index (α := α))) :=
  fun _ s h => by
    show s.length - 1 < s.length
    omega

theorem foldl_lomutoStep_perm {α : Type*} [LinearOrder α] (last : Nat) (js : List Nat)
    (acc : List α × Nat) :
    List.Perm ((js.foldl (lomutoStep last) acc).1) acc.1 := by
  induction js generalizing acc with
  | nil => exact List.Perm.refl _
  | cons j js ih =>
    rw [List.foldl_cons]
    refine (ih (lomutoStep last acc j)).trans ?_
    unfold lomutoStep
    cases h1 : acc.1[j]? with
    | none => exact List.Perm.refl _
    | some a =>
      cases h2 : acc.1[last]? with
      | none => exact List.Perm.refl _
      | some b =>
        show List.Perm (if a ≤ b then (listSwap acc.1 acc.2 j, acc.2 + 1) else acc).1 acc.1
        by_cases hab : a ≤ b
        · rw [if_pos hab]
          exact listSwap_perm _ _ _
        · rw [if_neg hab]

/-- A partition step only permutes the window, whatever the pivot index. -/
theorem partition_perm {α : Type*} [LinearOrder α] (s : List α) (p : Nat) :
    List.Perm (partition_unchecked s p).1 s := by
  unfold partition_unchecked
  exact (listSwap_perm _ _ _).trans
    ((foldl_lomutoStep_perm _ _ _).trans (listSwap_perm _ _ _))

theorem quickselect_value {α : Type*} [LinearOrder α] {σ : Type*}
    (gp : σ → List α → σ × Nat) (hgp : GoodStrategy gp) (st : σ) (s : List α)
    (k : Nat) (hk : k < s.length) :
    ∃ t n v, quickselect gp st s k = .ok (t, k, n) ∧ t[k]? = some v ∧
      (sortList s)[k]? = some v := by
  obtain ⟨t, n, heq, hlen, hperm, hget, hn1, hn2⟩ := quickselect_main gp hgp st s k hk
  have hklen : k < t.length := by omega
  refine ⟨t, n, t.get ⟨k, hklen⟩, heq, by simp, ?_⟩
  rw [← hget]
  simp

/-- C1: for every non-empty sequence and valid rank `k`, and every strategy
that always returns an in-window index, the checked `quickselect` succeeds
and the value in the returned slot equals the `k`-th smallest element of the
sequence (position `k` of the ascending sorting); in particular this holds
for the three provided reference strategies. -/
theorem C1_quickselect_selects_kth_smallest {α : Type*} [LinearOrder α] {σ : Type*}
    (gp : σ → List α → σ × Nat) (st : σ) (s : List α) (k : Nat)
    (hgp : GoodStrategy gp) (hk : k < s.length) :
    (∃ t n v, quickselect gp st s k = .ok (t, k, n) ∧ t[k]? = some v ∧
      (sortList s)[k]? = some v) ∧
    (∃ t n v, quickselect (liftStrategy first_index) () s k = .ok (t, k, n) ∧
      t[k]? = some v ∧ (sortList s)[k]? = some v) ∧
    (∃ t n v, quickselect (liftStrategy middle_index) () s k = .ok (t, k, n) ∧
      t[k]? = some v ∧ (sortList s)[k]? = some v) ∧
    (∃ t n v, quickselect (liftStrategy last_index) () s k = .ok (t, k, n) ∧
      t[k]? = some v ∧ (sortList s)[k]? = some v) :=
  ⟨quickselect_value gp hgp st s k hk,
    quickselect_value _ goodStrategy_first () s k hk,
    quickselect_value _ goodStrategy_middle () s k hk,
    quickselect_value _ goodStrategy_last () s k hk⟩

/-- Witness for C1 at the spec scenario `[4, 2, 5, 1, 3]`, `k = 2`, middle
strategy. -/
theorem C1_witness :
    (∃ t n v, quickselect (liftStrategy middle_index) () ([4, 2, 5, 1, 3] : List Nat) 2 =
        .ok (t, 2, n) ∧ t[2]? = some v ∧
        (sortList ([4, 2, 5, 1, 3] : List Nat))[2]? = some v) ∧
    (∃ t n v, quickselect (liftStrategy first_index) () ([4, 2, 5, 1, 3] : List Nat) 2 =
        .ok (t, 2, n) ∧ t[2]? = some v ∧
        (sortList ([4, 2, 5, 1, 3] : List Nat))[2]? = some v) ∧
    (∃ t n v, quickselect (liftStrategy middle_index) () ([4, 2, 5, 1, 3] : List Nat) 2 =
        .ok (t, 2, n) ∧ t[2]? = some v ∧
        (sortList ([4, 2, 5, 1, 3] : List Nat))[2]? = some v) ∧
    (∃ t n v, quickselect (liftStrategy last_index) () ([4, 2, 5, 1, 3] : List Nat) 2 =
        .ok (t, 2, n) ∧ t[2]? = some v ∧
        (sortList ([4, 2, 5, 1, 3] : List Nat))[2]? = some v) :=
  C1_quickselect_selects_kth_smallest (liftStrategy middle_index) ()
    ([4, 2, 5, 1, 3] : List Nat) 2 goodStrategy_middle (by decide)

/-- C2: partitioning a non-empty window around an in-range pivot index puts
the original pivot value at the returned index, everything before it is `≤`
the pivot value, everything after it is strictly greater, so ties go to the
`≤` side. -/
theorem C2_partition_postcondition {α : Type*} [LinearOrder α] (s : List α)
    (pivot_index : Nat) (hp : pivot_index < s.length) (t : List α) (i : Nat)
    (heq : partition_unchecked s pivot_index = (t, i)) :
    i < t.length ∧ ∃ pv, s[pivot_index]? = some pv ∧ t[i]? = some pv ∧
      (∀ x a, x < i → t[x]? = some a → a ≤ pv) ∧
      (∀ x a, i < x → t[x]? = some a → pv < a) := by
  obtain ⟨hlen, hilt, hperm, pv, h1, h2, h3, h4⟩ := partition_spec s pivot_index hp heq
  exact ⟨by omega, pv, h1, h2, h3, h4⟩

/-- Witness for C2 on a window with duplicated pivot value:
`[2, 7, 1, 2, 5]` partitioned at index 3 (pivot value 2) settles at index 2
with the duplicate 2 routed to the `≤` side. -/
theorem C2_witness :
    2 < ([2, 1, 2, 5, 7] : List Nat).length ∧
      ∃ pv, ([2, 7, 1, 2, 5] : List Nat)[3]? = some pv ∧
        ([2, 1, 2, 5, 7] : List Nat)[2]? = some pv ∧
        (∀ x a, x < 2 → ([2, 1, 2, 5, 7] : List Nat)[x]? = some a → a ≤ pv) ∧
        (∀ x a, 2 < x → ([2, 1, 2, 5, 7] : List Nat)[x]? = some a → pv < a) :=
  C2_partition_postcondition [2, 7, 1, 2, 5] 3 (by decide) [2, 1, 2, 5, 7] 2 (by decide)

/-- C3: a successful checked selection only permutes the sequence, and each
partition step only permutes the window. -/
theorem C3_multiset_preserved {α : Type*} [LinearOrder α] {σ : Type*}
    (gp : σ → List α → σ × Nat) (st : σ) (s : List α) (k pivot_index : Nat)
    (hgp : GoodStrategy gp) (hk : k < s.length) :
    List.Perm (partition_unchecked s pivot_index).1 s ∧
      ∃ t n, quickselect gp st s k = .ok (t, k, n) ∧ List.Perm t s := by
  obtain ⟨t, n, heq, hlen, hperm, h1, h2, h3⟩ := quickselect_main gp hgp st s k hk
  exact ⟨partition_perm s pivot_index, t, n, heq, hperm⟩

/-- Witness for C3 at `[4, 2, 5, 1, 3]`, `k = 2`, middle strategy,
partition index 1. -/
theorem C3_witness :
    List.Perm (partition_unchecked ([4, 2, 5, 1, 3] : List Nat) 1).1 [4, 2, 5, 1, 3] ∧
      ∃ t n, quickselect (liftStrategy middle_index) () ([4, 2, 5, 1, 3] : List Nat) 2 =
          .ok (t, 2, n) ∧ List.Perm t [4, 2, 5, 1, 3] :=
  C3_multiset_preserved (liftStrategy middle_index) () [4, 2, 5, 1, 3] 2 1
    goodStrategy_middle (by decide)

/-- C4: one iteration of the selection loop preserves the loop invariant:
if the window is non-empty and `k` is in range and the pivot index is in
range, then whichever narrowed window the branch on the settled pivot
position selects is non-empty and contains the re-based `k`. -/
theorem C4_loop_invariant {α : Type*} [LinearOrder α] (s : List α)
    (k pivot_index : Nat) (hk : k < s.length) (hp : pivot_index < s.length)
    (t : List α) (p : Nat) (heq : partition_unchecked s pivot_index = (t, p)) :
    0 < s.length ∧
      (p < k → 0 < (t.drop (p + 1)).length ∧ k - (p + 1) < (t.drop (p + 1)).length) ∧
      (k < p → 0 < (t.take p).length ∧ k < (t.take p).length) := by
  obtain ⟨hlen, hplt, hrest⟩ := partition_spec s pivot_index hp heq
  refine ⟨by omega, fun hpk => ?_, fun hpk => ?_⟩
  · rw [List.length_drop]
    omega
  · constructor <;> (rw [List.length_take]; omega)

/-- Witness for C4: partition of `[2, 7, 1, 2, 5]` at pivot index 3 settles
at `p = 2`; with `k = 4` the right narrowing, with `k = 0` the left narrowing
is non-empty and contains the re-based rank. -/
theorem C4_witness :
    (0 < ([2, 7, 1, 2, 5] : List Nat).length ∧
      (2 < 4 → 0 < (([2, 1, 2, 5, 7] : List Nat).drop 3).length ∧
        4 - 3 < (([2, 1, 2, 5, 7] : List Nat).drop 3).length) ∧
      (4 < 2 → 0 < (([2, 1, 2, 5, 7] : List Nat).take 2).length ∧
        4 < (([2, 1, 2, 5, 7] : List Nat).take 2).length)) ∧
    (0 < ([2, 7, 1, 2, 5] : List Nat).length ∧
      (2 < 0 → 0 < (([2, 1, 2, 5, 7] : List Nat).drop 3).length ∧
        0 - 3 < (([2, 1, 2, 5, 7] : List Nat).drop 3).length) ∧
      (0 < 2 → 0 < (([2, 1, 2, 5, 7] : List Nat).take 2).length ∧
        0 < (([2, 1, 2, 5, 7] : List Nat).take 2).length)) :=
  ⟨C4_loop_invariant [2, 7, 1, 2, 5] 4 3 (by decide) (by decide) [2, 1, 2, 5, 7] 2
      (by decide),
    C4_loop_invariant [2, 7, 1, 2, 5] 0 3 (by decide) (by decide) [2, 1, 2, 5, 7] 2
      (by decide)⟩

/-- C5: the narrowed window of a non-returning iteration is strictly shorter
than the current window, and consequently a checked selection with a valid
rank and an in-window strategy succeeds after at most `s.length` loop
iterations. -/
theorem C5_termination {α : Type*} [LinearOrder α] {σ : Type*}
    (gp : σ → List α → σ × Nat) (st : σ) (s : List α) (k pivot_index : Nat)
    (hgp : GoodStrategy gp) (hk : k < s.length) (hp : pivot_index < s.length)
    (t : List α) (p : Nat) (heq : partition_unchecked s pivot_index = (t, p)) :
    (p < k → (t.drop (p + 1)).length < s.length) ∧
      (k < p → (t.take p).length < s.length) ∧
      ∃ tf n, quickselect gp st s k = .ok (tf, k, n) ∧ 0 < n ∧ n ≤ s.length := by
  obtain ⟨hlen, hplt, hrest⟩ := partition_spec s pivot_index hp heq
  obtain ⟨tf, n, heq2, h1, h2, h3, hn1, hn2⟩ := quickselect_main gp hgp st s k hk
  refine ⟨fun hpk => ?_, fun hpk => ?_, tf, n, heq2, hn1, hn2⟩
  · rw [List.length_drop]
    omega
  · rw [List.length_take]
    omega

/-- Witness for C5 at `[2, 7, 1, 2, 5]`, `k = 4`, pivot index 3, middle
strategy. -/
theorem C5_witness :
    (2 < 4 → (([2, 1, 2, 5, 7] : List Nat).drop 3).length <
      ([2, 7, 1, 2, 5] : List Nat).length) ∧
    (4 < 2 → (([2, 1, 2, 5, 7] : List Nat).take 2).length <
      ([2, 7, 1, 2, 5] : List Nat).length) ∧
    ∃ tf n, quickselect (liftStrategy middle_index) () ([2, 7, 1, 2, 5] : List Nat) 4 =
      .ok (tf, 4, n) ∧ 0 < n ∧ n ≤ ([2, 7, 1, 2, 5] : List Nat).length :=
  C5_termination (liftStrategy middle_index) () [2, 7, 1, 2, 5] 4 3
    goodStrategy_middle (by decide) (by decide) [2, 1, 2, 5, 7] 2 (by decide)

/-- C6: after a successful checked selection, the slot the returned
reference aliases is index `k` of the original view (the loop re-bases `k`
relative to narrowed windows, but the absolute index is unchanged), and the
element there is the `k`-th smallest value of the original sequence. -/
theorem C6_inplace_relocation {α : Type*} [LinearOrder α] {σ : Type*}
    (gp : σ → List α → σ × Nat) (st : σ) (s : List α) (k : Nat)
    (hgp : GoodStrategy gp) (hk : k < s.length) :
    ∃ t n, quickselect gp st s k = .ok (t, k, n) ∧ t.length = s.length ∧
      t[k]? = (sortList s)[k]? := by
  obtain ⟨t, n, heq, hlen, h1, hget, h2, h3⟩ := quickselect_main gp hgp st s k hk
  exact ⟨t, n, heq, hlen, hget⟩

/-- Witness for C6 at `[4, 2, 5, 1, 3]`, `k = 2`, first-index strategy. -/
theorem C6_witness :
    ∃ t n, quickselect (liftStrategy first_index) () ([4, 2, 5, 1, 3] : List Nat) 2 =
      .ok (t, 2, n) ∧ t.length = ([4, 2, 5, 1, 3] : List Nat).length ∧
      t[2]? = (sortList ([4, 2, 5, 1, 3] : List Nat))[2]? :=
  C6_inplace_relocation (liftStrategy first_index) () [4, 2, 5, 1, 3] 2
    goodStrategy_first (by decide)

/-- C7: the checked selection fails with the out-of-bounds report (actual
length and actual `k`) exactly when `k ≥ length`, leaving the sequence
untouched; a strategy answer `≥` the current window length fails with the
invalid-pivot report built from the actual window length and the offending
index; and every failure is raised before any swap of the failing iteration,
so the reported sequence state contains the failing window unmodified and is
exactly the permutation produced by the previously completed iterations. -/
theorem C7_failure_reporting {α : Type*} [LinearOrder α] {σ : Type*}
    (gp : σ → List α → σ × Nat) (st : σ) (s : List α) (k : Nat) :
    (s.length ≤ k → quickselect gp st s k = .error (.indexOutOfBounds s.length k, s)) ∧
    (k < s.length → s.length ≤ (gp st s).2 →
      quickselect gp st s k = .error (.invalidPivot s.length (gp st s).2, s)) ∧
    (∀ e t, quickselect gp st s k = .error (e, t) →
      (s.length ≤ k ∧ e = .indexOutOfBounds s.length k ∧ t = s) ∨
      (k < s.length ∧ List.Perm t s ∧ t.length = s.length ∧
        ∃ len idx pre w suf st2, e = .invalidPivot len idx ∧ len ≤ idx ∧
          t = pre ++ w ++ suf ∧ w.length = len ∧ (gp st2 w).2 = idx)) :=
  ⟨quickselect_eq_of_ge gp st s k, quickselect_pivot_fail gp st s k,
    fun e t => quickselect_error_inv gp st s k e t⟩

/-- Witness for C7: the spec scenario `[1, 2, 3]`, `k = 3` reports length 3,
index 3 without mutation; a strategy answering `len + 2` on `[4, 2, 5, 1, 3]`
reports the invalid pivot 7 against length 5 without mutation. -/
theorem C7_witness :
    quickselect (liftStrategy middle_index) () ([1, 2, 3] : List Nat) 3 =
      .error (.indexOutOfBounds 3 3, [1, 2, 3]) ∧
    quickselect (liftStrategy (fun s => s.length + 2)) () ([4, 2, 5, 1, 3] : List Nat) 2 =
      .error (.invalidPivot 5 7, [4, 2, 5, 1, 3]) :=
  ⟨(C7_failure_reporting (liftStrategy middle_index) () ([1, 2, 3] : List Nat) 3).1
      (by decide),
    (C7_failure_reporting (liftStrategy (fun s => s.length + 2)) ()
      ([4, 2, 5, 1, 3] : List Nat) 2).2.1 (by decide) (by decide)⟩

/-- C8: with any in-window strategy, rank 0 selects the minimum, rank
`length - 1` selects the maximum, and on a single-element sequence the call
returns that element on the first iteration with the sequence unchanged. -/
theorem C8_boundary_behavior {α : Type*} [LinearOrder α] {σ : Type*}
    (gp : σ → List α → σ × Nat) (st : σ) (s : List α) (x : α)
    (hgp : GoodStrategy gp) (hs : 0 < s.length) :
    (∃ t n v, quickselect gp st s 0 = .ok (t, 0, n) ∧ t[0]? = some v ∧
      v ∈ s ∧ ∀ y ∈ s, v ≤ y) ∧
    (∃ t n v, quickselect gp st s (s.length - 1) = .ok (t, s.length - 1, n) ∧
      t[s.length - 1]? = some v ∧ v ∈ s ∧ ∀ y ∈ s, y ≤ v) ∧
    quickselect gp st [x] 0 = .ok ([x], 0, 1) := by
  refine ⟨?_, ?_, quickselect_singleton gp st x (hgp st [x] (by simp))⟩
  · obtain ⟨t, n, heq, hlen, hperm, hget, h1, h2⟩ := quickselect_main gp hgp st s 0 hs
    obtain ⟨v, hv, hmem, hmin⟩ := sortList_head_min s hs
    exact ⟨t, n, v, heq, by rw [hget]; exact hv, hmem, hmin⟩
  · have hk : s.length - 1 < s.length := by omega
    obtain ⟨t, n, heq, hlen, hperm, hget, h1, h2⟩ :=
      quickselect_main gp hgp st s (s.length - 1) hk
    obtain ⟨v, hv, hmem, hmax⟩ := sortList_last_max s hs
    exact ⟨t, n, v, heq, by rw [hget]; exact hv, hmem, hmax⟩

/-- Witness for C8 at `[4, 2, 5, 1, 3]` and the spec singleton scenario
`[5]`, middle strategy. -/
theorem C8_witness :
    (∃ t n v, quickselect (liftStrategy middle_index) () ([4, 2, 5, 1, 3] : List Nat) 0 =
      .ok (t, 0, n) ∧ t[0]? = some v ∧ v ∈ ([4, 2, 5, 1, 3] : List Nat) ∧
      ∀ y ∈ ([4, 2, 5, 1, 3] : List Nat), v ≤ y) ∧
    (∃ t n v, quickselect (liftStrategy middle_index) () ([4, 2, 5, 1, 3] : List Nat) 4 =
      .ok (t, 4, n) ∧ t[4]? = some v ∧ v ∈ ([4, 2, 5, 1, 3] : List Nat) ∧
      ∀ y ∈ ([4, 2, 5, 1, 3] : List Nat), y ≤ v) ∧
    quickselect (liftStrategy middle_index) () ([5] : List Nat) 0 = .ok ([5], 0, 1) :=
  C8_boundary_behavior (liftStrategy middle_index) () [4, 2, 5, 1, 3] 5
    goodStrategy_middle (by decide)

/-- C9: whenever the unchecked variant's preconditions hold (valid rank,
strategy always in-window), the checked and unchecked variants return the
same slot and leave the sequence in the same final arrangement. -/
theorem C9_checked_unchecked_agree {α : Type*} [LinearOrder α] {σ : Type*}
    (gp : σ → List α → σ × Nat) (st : σ) (s : List α) (k : Nat)
    (hgp : GoodStrategy gp) (hk : k < s.length) :
    ∃ t n, quickselect gp st s k = .ok (t, k, n) ∧
      quickselect_unchecked gp st s k = some (t, k, n) := by
  obtain ⟨t, n, heq, h1, h2, h3, h4, h5⟩ := quickselect_main gp hgp st s k hk
  refine ⟨t, n, heq, ?_⟩
  rw [quickselect_unchecked, qsLoopU_eq_toOption gp s.length s k st le_rfl]
  rw [quickselect, if_neg (by omega)] at heq
  rw [heq]
  rfl

/-- Witness for C9 at `[4, 2, 5, 1, 3]`, `k = 2`, middle strategy. -/
theorem C9_witness :
    ∃ t n, quickselect (liftStrategy middle_index) () ([4, 2, 5, 1, 3] : List Nat) 2 =
      .ok (t, 2, n) ∧
      quickselect_unchecked (liftStrategy middle_index) ()
        ([4, 2, 5, 1, 3] : List Nat) 2 = some (t, 2, n) :=
  C9_checked_unchecked_agree (liftStrategy middle_index) () [4, 2, 5, 1, 3] 2
    goodStrategy_middle (by decide)

theorem no_invalid_pivot {α : Type*} [LinearOrder α] {σ : Type*}
    (gp : σ → List α → σ × Nat) (hgp : GoodStrategy gp) (st : σ) (s : List α)
    (k len idx : Nat) (t : List α) :
    quickselect gp st s k ≠ .error (.invalidPivot len idx, t) := by
  intro heq
  by_cases hk : s.length ≤ k
  · rw [quickselect_eq_of_ge gp st s k hk] at heq
    injection heq with h1
    obtain ⟨he, ht⟩ := Prod.mk.injEq _ _ _ _ ▸ h1
    exact QsError.noConfusion he
  · obtain ⟨t2, n, heq2, h1, h2, h3, h4, h5⟩ := quickselect_main gp hgp st s k (by omega)
    rw [heq2] at heq
    exact Except.noConfusion heq

/-- C10: on every non-empty window the three provided strategies return an
index strictly below the window length, so the checked selection can never
take its invalid-pivot failure branch with any of them. -/
theorem C10_reference_strategies_safe {α : Type*} [LinearOrder α] (s : List α)
    (hs : 0 < s.length) :
    first_index s < s.length ∧ middle_index s < s.length ∧
    last_index s < s.length ∧
    (∀ k2 len idx t, quickselect (liftStrategy (first_index (α := α))) () s k2 ≠
      .error (.invalidPivot len idx, t)) ∧
    (∀ k2 len idx t, quickselect (liftStrategy (middle_index (α := α))) () s k2 ≠
      .error (.invalidPivot len idx, t)) ∧
    (∀ k2 len idx t, quickselect (liftStrategy (last_index (α := α))) () s k2 ≠
      .error (.invalidPivot len idx, t)) :=
  ⟨hs, Nat.div_lt_self hs (by omega), by show s.length - 1 < s.length; omega,
    fun k2 len idx t => no_invalid_pivot _ goodStrategy_first () s k2 len idx t,
    fun k2 len idx t => no_invalid_pivot _ goodStrategy_middle () s k2 len idx t,
    fun k2 len idx t => no_invalid_pivot _ goodStrategy_last () s k2 len idx t⟩

/-- Witness for C10 at `[4, 2, 5, 1, 3]`. -/
theorem C10_witness :
    first_index ([4, 2, 5, 1, 3] : List Nat) < 5 ∧
    middle_index ([4, 2, 5, 1, 3] : List Nat) < 5 ∧
    last_index ([4, 2, 5, 1, 3] : List Nat) < 5 ∧
    (∀ k2 len idx t, quickselect (liftStrategy (first_index (α := Nat))) ()
      [4, 2, 5, 1, 3] k2 ≠ .error (.invalidPivot len idx, t)) ∧
    (∀ k2 len idx t, quickselect (liftStrategy (middle_index (α := Nat))) ()
      [4, 2, 5, 1, 3] k2 ≠ .error (.invalidPivot len idx, t)) ∧
    (∀ k2 len idx t, quickselect (liftStrategy (last_index (α := Nat))) ()
      [4, 2, 5, 1, 3] k2 ≠ .error (.invalidPivot len idx, t)) :=
  C10_reference_strategies_safe [4, 2, 5, 1, 3] (by decide)

end AlgQuickselect
